import Mathlib

/-!
Shallow embedding of `src/carosels/parsers/parser.py` (filename sanitizer,
collision resolver, bulk rename, Bootstrap carousel emitter), together with
theorems settling the frozen claims about it.

Modelling conventions:
* Python strings are Lean `String`/`List Char`; `str.lower()` is modelled on
  the ASCII range (the only range any claim depends on: every non-ASCII
  character is removed by the sanitizing regexes regardless of case).
* `pathlib.PurePosixPath` name/stem/suffix semantics are reproduced exactly
  (split on `/`, drop empty and `.` components; the extension is the part from
  the last dot, provided that dot is neither the first nor the last character
  of the name).
* The filesystem is explicit data: a directory is a `List Entry`
  (name, regular-file flag, abstract content); `path.exists()` is membership
  of the name among the directory's entries; `path.rename` rewrites the name.
* Fallible Python code (raising `ValueError` / `RuntimeError`) is modelled
  with `Except String`; the emitter passes the filesystem state through
  explicitly so that "no write happened" is a statement about the state.
-/

/-! ### ASCII character helpers -/

/-- Model of `str.lower()` on the ASCII range: uppercase letters map down, everything
else is unchanged. -/
def lowerCh (c : Char) : Char :=
  if 'A' ≤ c ∧ c ≤ 'Z' then Char.ofNat (c.toNat + 32) else c

def isLowerAlpha (c : Char) : Bool := decide ('a' ≤ c) && decide (c ≤ 'z')

def isDigitCh (c : Char) : Bool := decide ('0' ≤ c) && decide (c ≤ '9')

/-- Character class of the stem regex `[a-z0-9_-]`. -/
def isStemChar (c : Char) : Bool :=
  isLowerAlpha c || isDigitCh c || decide (c = '_') || decide (c = '-')

/-- Character class of the suffix regex `[a-z0-9.]`. -/
def isSuffChar (c : Char) : Bool :=
  isLowerAlpha c || isDigitCh c || decide (c = '.')

def lowerL (l : List Char) : List Char := l.map lowerCh

/-- Model of `.replace(" ", "_")`. -/
def replSpace (l : List Char) : List Char :=
  l.map (fun c => if c = ' ' then '_' else c)

/-- Model of `re.sub(r"[^a-z0-9_-]", "", ·)`. -/
def filterStem (l : List Char) : List Char := l.filter isStemChar

/-- Model of `re.sub(r"[^a-z0-9.]", "", ·)`. -/
def filterSuff (l : List Char) : List Char := l.filter isSuffChar

/-- Model of `re.sub(r"_+", "_", ·)`: collapse each run of underscores to a single
underscore (an underscore followed by another underscore is dropped). -/
def collapseU : List Char → List Char
  | [] => []
  | [c] => [c]
  | c :: d :: rest =>
    if c = '_' ∧ d = '_' then collapseU (d :: rest)
    else c :: collapseU (d :: rest)

/-- Model of `.strip("_")`: drop leading and trailing underscores. -/
def stripU (l : List Char) : List Char :=
  ((l.dropWhile (fun c => c = '_')).reverse.dropWhile (fun c => c = '_')).reverse

/-- The stem pipeline shared by `sanitize_filename` and `sanitize_slug`:
lowercase, spaces to underscores, keep `[a-z0-9_-]`, collapse underscore
runs, strip edge underscores. -/
def cleanStem (l : List Char) : List Char :=
  stripU (collapseU (filterStem (replSpace (lowerL l))))

/-! ### `pathlib` name / stem / suffix semantics -/

/-- Split a string on `/` (all pieces, including empty ones). -/
def splitSlash : List Char → List (List Char)
  | [] => [[]]
  | c :: cs =>
    if c = '/' then [] :: splitSlash cs
    else
      match splitSlash cs with
      | [] => [[c]]
      | g :: gs => (c :: g) :: gs

/-- Components of a `PurePosixPath`: split on `/`, drop empty and `.` pieces
(`..` is kept as an ordinary component). -/
def pathParts (s : List Char) : List (List Char) :=
  (splitSlash s).filter (fun c => ¬ (c = [] ∨ c = ['.']))

/-- Model of `Path(s).name`: the last component, or empty. -/
def pyName (s : List Char) : List Char :=
  (pathParts s).getLast?.getD []

/-- Scan a reversed name for its first `.`; returns the characters before it
(the reversed extension body) and the characters after it (the reversed
stem). -/
def scanDot : List Char → Option (List Char × List Char)
  | [] => none
  | c :: cs =>
    if c = '.' then some ([], cs)
    else (scanDot cs).map (fun p => (c :: p.1, p.2))

/-- Model of `(Path(name).stem, Path(name).suffix)` for a single name: the last dot
splits off the extension, provided it is neither the first nor the last
character of the name. -/
def pySplitExt (name : List Char) : List Char × List Char :=
  match scanDot name.reverse with
  | some (ext, rest) =>
    if ext ≠ [] ∧ rest ≠ [] then (rest.reverse, '.' :: ext.reverse)
    else (name, [])
  | none => (name, [])

/-! ### `sanitize_filename` and `sanitize_slug` -/

/-- The function `sanitize_filename` from the source: lowercase, spaces to underscores,
keep only `[a-z0-9_-]` in the stem (with `file` as fallback for an empty
stem) and `[a-z0-9.]` in the suffix. -/
def sanitize_filename (s : String) : String :=
  let n := pyName s.data
  let st := cleanStem (pySplitExt n).1
  let stem := if st = [] then "file".data else st
  let suffix := filterSuff (lowerL (pySplitExt n).2)
  String.mk (stem ++ suffix)

/-- The function `sanitize_slug` from the source: same stem pipeline on the whole string,
with `carousel` as the fallback for an empty result. -/
def sanitize_slug (s : String) : String :=
  let t := cleanStem s.data
  if t = [] then "carousel" else String.mk t

/-- Decidable transcription of the regex disjunction
`^[a-z0-9_-]+\.[a-z0-9.]*$` or `^[a-z0-9_-]+$`: a maximal nonempty prefix of
stem characters, followed by nothing, or by a dot and suffix characters.
(The match is equivalent to the regexes because `.` is not a stem character,
so the regex's `[a-z0-9_-]+` group must stop exactly where `takeWhile`
stops.) -/
def matchesPattern (s : String) : Bool :=
  let st := s.data.takeWhile isStemChar
  let rest := s.data.dropWhile isStemChar
  decide (st ≠ []) &&
    (match rest with
     | [] => true
     | c :: t => decide (c = '.') && t.all isSuffChar)

/-! ### Decimal rendering of the collision counter (`f"{i}"`) -/

/-- One decimal digit character. -/
def digChar : Nat → Char
  | 0 => '0' | 1 => '1' | 2 => '2' | 3 => '3' | 4 => '4'
  | 5 => '5' | 6 => '6' | 7 => '7' | 8 => '8' | 9 => '9'
  | _ => '?'

/-- Fueled most-significant-first decimal rendering (the fuel `n + 1` always
suffices, see `decRepAux_eq`). -/
def decRepAux : Nat → Nat → List Char
  | 0, _ => []
  | fuel + 1, n =>
    if n < 10 then [digChar n]
    else decRepAux fuel (n / 10) ++ [digChar (n % 10)]

/-- The decimal numeral of `n`, as rendered by a Python f-string. -/
def decRepr (n : Nat) : List Char := decRepAux (n + 1) n

/-- Decimal value of a digit string (used only to prove `decRepr`
injective). -/
def decVal (l : List Char) : Nat :=
  l.foldl (fun a c => 10 * a + (c.toNat - 48)) 0

/-! ### `unique_path`

The filesystem state relevant to `unique_path` is the (finite) list of names
existing in the parent directory; `path.exists()` is membership in it. The
`while True` loop of the source is modelled by a fueled loop: fuel
`names.length + 1` always suffices (`exists_free_cand` below), and the
result is the first free candidate (`uniqueAux_spec`). -/

/-- The candidate `f"{stem}_{i}{suffix}"`. -/
def candName (stem suffix : List Char) (i : Nat) : String :=
  String.mk (stem ++ '_' :: (decRepr i ++ suffix))

/-- The `while True` loop of `unique_path`: try `i`, `i+1`, … until a
candidate is not taken. -/
def uniqueAux (names : List String) (stem suffix : List Char) : Nat → Nat → String
  | i, 0 => candName stem suffix i
  | i, fuel + 1 =>
    if candName stem suffix i ∈ names then
      uniqueAux names stem suffix (i + 1) fuel
    else candName stem suffix i

/-- The function `unique_path` from the source: if the candidate name exists in the
directory, append `_1`, `_2`, … before the extension until it does not. -/
def unique_path (names : List String) (n : String) : String :=
  if n ∈ names then
    uniqueAux names (pySplitExt n.data).1 (pySplitExt n.data).2 1 (names.length + 1)
  else n

/-! ### `rename_files` -/

/-- A directory entry: its name, whether it is a regular file, and an opaque
content identifier (renames move content between names but never change
it). -/
structure Entry where
  name : String
  is_file : Bool
  content : Nat
deriving DecidableEq

/-- State threaded through the rename pass: the current directory contents,
the renames reported so far (old name, new name), and whether any executed
rename found its target already existing (i.e. clobbered a file). -/
structure RenState where
  cur : List Entry
  log : List (String × String)
  clob : Bool
deriving DecidableEq

/-- One iteration of the `rename_files` loop on the snapshot entry `e`:
skip non-files, sanitize the name, resolve collisions against the live
directory contents, skip if the target equals the current path, otherwise
rename. -/
def renameStep (st : RenState) (e : Entry) : RenState :=
  if ¬ e.is_file then st
  else
    let sanitized := sanitize_filename e.name
    let names := st.cur.map (fun x => x.name)
    let target := unique_path names sanitized
    if e.name = target then st
    else
      { cur := st.cur.map (fun x => if x.name = e.name then { x with name := target } else x),
        log := st.log ++ [(e.name, target)],
        clob := st.clob || decide (target ∈ names) }

/-- The function `rename_files` from the source: iterate over the directory snapshot,
renaming each regular file to its collision-resolved sanitized name. -/
def rename_files (d : List Entry) : RenState :=
  d.foldl renameStep ⟨d, [], false⟩

/-- Wrapper for `rename_files` with the leading `is_dir` check: a missing directory is a
`ValueError`. -/
def rename_files_op (d : Option (List Entry)) : Except String RenState :=
  match d with
  | none => Except.error "Not a directory"
  | some d => Except.ok (rename_files d)

/-! ### Paths, the emitter's filesystem model, and HTML fragments -/

/-- The decimal numeral as a `String` (what an f-string interpolates for a
`Nat`-valued variable). -/
def natLit (n : Nat) : String := String.mk (decRepr n)

/-- A filesystem path: whether it is rooted at `/`, and its components. -/
structure PPath where
  rooted : Bool
  comps : List String
deriving DecidableEq

/-- Normalize path components the way `Path.resolve()` does on a
symlink-free tree: drop empty and `.` pieces, let `..` pop the previous
component (at the root it is a no-op). -/
def normComps (acc : List String) : List String → List String
  | [] => acc
  | c :: cs =>
    if c = "" ∨ c = "." then normComps acc cs
    else if c = ".." then normComps acc.dropLast cs
    else normComps (acc ++ [c]) cs

/-- Model of `p.resolve()` relative to an absolute working directory `cwd`: make the
path absolute, then canonicalize. Symbolic links are outside the model. -/
def resolvePath (cwd p : PPath) : PPath :=
  ⟨true, normComps [] ((if p.rooted then [] else cwd.comps) ++ p.comps)⟩

/-- Test for `a ∈ b.parents` over resolved (absolute) paths: `a`'s components are a
proper initial segment of `b`'s. -/
def parentOf (a b : PPath) : Bool :=
  decide (a.rooted = b.rooted) &&
    decide (b.comps.take a.comps.length = a.comps) &&
    decide (a.comps.length < b.comps.length)

/-- Join `parent / child` for a child string without leading slash: the child is
split on `/` like any path text. -/
def joinChild (p : PPath) (s : String) : PPath :=
  ⟨p.rooted, p.comps ++ (pathParts s.data).map String.mk⟩

/-- The `Path.name` of a modelled path. -/
def lastName (p : PPath) : String := p.comps.getLast?.getD ""

/-- Model of `PurePosixPath.as_posix()`. -/
def asPosix (p : PPath) : String :=
  (if p.rooted then "/" else "") ++ String.intercalate "/" p.comps

/-- Model of `str.rstrip("/")`. -/
def rstripSlash (s : String) : String :=
  String.mk ((s.data.reverse.dropWhile (fun c => c = '/')).reverse)

/-- Model of `os.path.basename`: everything after the last `/` (no normalization). -/
def osBasename (s : String) : String :=
  String.mk ((s.data.reverse.takeWhile (fun c => ¬ c = '/')).reverse)

/-- The image URL the emitter builds for a scanned file:
`base.rstrip("/") + "/" + (photos_folder / name).as_posix()`. -/
def mkUrl (base : String) (folder : PPath) (nm : String) : String :=
  rstripSlash base ++ "/" ++ asPosix (joinChild folder nm)

/-- The marker `' class="active"' if i == 0 else ""` of an indicator. -/
def indicatorCls (i : Nat) : String :=
  if i = 0 then " class=\x22active\x22" else ""

/-- One `<li>` indicator fragment. -/
def indicatorLine (i : Nat) : String :=
  "                <li data-target=\x22#myCarousel\x22 data-slide-to=\x22" ++
    natLit i ++ "\x22" ++ indicatorCls i ++ "></li>"

/-- The indicator fragments, one per image URL, indexed from 0. -/
def indicators_lines (image_urls : List String) : List String :=
  (List.range image_urls.length).map indicatorLine

/-- The marker `" active" if i == 0 else ""` of a slide. -/
def slideActiveStr (i : Nat) : String := if i = 0 then " active" else ""

/-- One `<div class="item...">` slide fragment. -/
def slideLine (i : Nat) (url : String) : String :=
  "                <div class=\x22item" ++ slideActiveStr i ++
    "\x22><img src=\x22" ++ url ++ "\x22 alt=\x22" ++ osBasename url ++
    "\x22 style=\x22width:100%;\x22></div>"

/-- The slide fragments, one per image URL, in URL order. -/
def slide_lines (image_urls : List String) : List String :=
  image_urls.enum.map (fun p => slideLine p.1 p.2)

/-- The indices of the fragments that carry the conditional active marker
(those whose `cls` / `active` interpolation is nonempty). -/
def activeIdx (markOf : Nat → String) (n : Nat) : List Nat :=
  (List.range n).filter (fun i => markOf i ≠ "")

/-- ASCII `str.upper()` for one character. -/
def upperCh (c : Char) : Char :=
  if 'a' ≤ c ∧ c ≤ 'z' then Char.ofNat (c.toNat - 32) else c

def isAlphaCh (c : Char) : Bool :=
  (decide ('a' ≤ c) && decide (c ≤ 'z')) || (decide ('A' ≤ c) && decide (c ≤ 'Z'))

/-- Model of `str.title()` on ASCII text: the first letter of each alphabetic run is
uppercased, the rest lowercased. The boolean argument tracks whether the
previous character was alphabetic. -/
def titleAux : Bool → List Char → List Char
  | _, [] => []
  | prev, c :: cs =>
    if isAlphaCh c then
      (if prev then lowerCh c else upperCh c) :: titleAux true cs
    else c :: titleAux false cs

/-- Model of `slug.replace("_", " ").title()`. -/
def titleOf (slug : String) : String :=
  String.mk (titleAux false (slug.data.map (fun c => if c = '_' then ' ' else c)))

/-- The selection predicate of the emitter's scan:
`p.is_file() and p.suffix.lower() == ".png"`. -/
def qualifies (e : Entry) : Bool :=
  e.is_file && String.mk (lowerL (pySplitExt e.name.data).2) == ".png"

/-- The scan: qualifying entries' names, sorted ascending
(`sorted(..., key=lambda p: p.name)`). -/
def sortedPngs (d : List Entry) : List String :=
  List.insertionSort (fun a b => a ≤ b) ((d.filter qualifies).map (fun e => e.name))

/-- The function `build_carousel_html`: the complete Bootstrap 3 document embedding the
indicator and slide fragments and the rotation interval. -/
def build_carousel_html (image_urls : List String) (title : String)
    (interval_ms : Nat) : String :=
  let indicators := String.intercalate "\n" (indicators_lines image_urls)
  let slides := String.intercalate "\n" (slide_lines image_urls)
  "<!DOCTYPE html>\n<html lang=\x22en\x22>\n<head>\n    <title>" ++ title ++
    "</title>\n    <meta charset=\x22utf-8\x22>\n    <meta name=\x22viewport\x22 content=\x22width=device-width, height=device-height, initial-scale=1\x22>\n" ++
    "    <link rel=\x22stylesheet\x22 href=\x22https://maxcdn.bootstrapcdn.com/bootstrap/3.4.1/css/bootstrap.min.css\x22>\n" ++
    "    <script src=\x22https://ajax.googleapis.com/ajax/libs/jquery/3.7.1/jquery.min.js\x22></script>\n" ++
    "    <script src=\x22https://maxcdn.bootstrapcdn.com/bootstrap/3.4.1/js/bootstrap.min.js\x22></script>\n</head>\n<body>\n    <div class=\x22container\x22>\n" ++
    "        <div id=\x22myCarousel\x22 class=\x22carousel slide\x22 data-ride=\x22carousel\x22 data-interval=\x22" ++
    natLit interval_ms ++
    "\x22>\n            <ol class=\x22carousel-indicators\x22>\n" ++ indicators ++
    "\n            </ol>\n\n            <div class=\x22carousel-inner\x22 role=\x22listbox\x22>\n" ++
    slides ++
    "\n            </div>\n\n            <a class=\x22left carousel-control\x22 href=\x22#myCarousel\x22 data-slide=\x22prev\x22>\n                <span class=\x22glyphicon glyphicon-chevron-left\x22></span>\n                <span class=\x22sr-only\x22>Previous</span>\n            </a>\n" ++
    "            <a class=\x22right carousel-control\x22 href=\x22#myCarousel\x22 data-slide=\x22next\x22>\n                <span class=\x22glyphicon glyphicon-chevron-right\x22></span>\n                <span class=\x22sr-only\x22>Next</span>\n            </a>\n        </div>\n    </div>\n\n" ++
    "    <script>\n    // JS fallback to ensure interval applies even if data-interval is ignored.\n    $(function() \x7b\n        $('#myCarousel').carousel(\x7b interval: " ++
    natLit interval_ms ++
    " \x7d);\n    \x7d);\n    </script>\n</body>\n</html>\n"

/-- Caller-supplied inputs of the emitter: the photos folder's path text,
the public base URL, the output directory, the rotation interval, and the
process working directory (used by `resolve()`). -/
structure Config where
  photosPath : PPath
  baseUrl : String
  outDir : PPath
  interval_ms : Nat
  cwd : PPath
deriving DecidableEq

/-- The filesystem state the emitter touches: the photos directory's
contents (`none` when the supplied path is not a directory) and the files
written so far by the emitter. -/
structure FS where
  photosDir : Option (List Entry)
  written : List (PPath × String)
deriving DecidableEq

/-- Lines 199-208 of the source: resolve the output directory and output
path, refuse (RuntimeError, nothing written) unless the resolved output
path is the resolved output directory or nested under it, else write. -/
def secureWrite (cwd outDir outPath : PPath) (content : String) (fs : FS) :
    Except String PPath × FS :=
  if parentOf (resolvePath cwd outDir) (resolvePath cwd outPath) ||
      decide (resolvePath cwd outPath = resolvePath cwd outDir) then
    (Except.ok outPath, { fs with written := fs.written ++ [(outPath, content)] })
  else (Except.error "Refusing to write outside output directory.", fs)

/-- The function `parse_photos_to_carousel_html`: validate the directory, rename, scan
and sort the `.png` files, build the URLs and the HTML document, and write
it as `<slug>.html` inside the output directory behind the security
check. -/
def parse_photos_to_carousel_html (cfg : Config) (fs : FS) :
    Except String PPath × FS :=
  match fs.photosDir with
  | none => (Except.error ("Not a directory: " ++ asPosix cfg.photosPath), fs)
  | some d =>
    let ren := rename_files d
    let fs1 : FS := { fs with photosDir := some ren.cur }
    let pngs := sortedPngs ren.cur
    let image_urls := pngs.map (mkUrl cfg.baseUrl cfg.photosPath)
    let slug := sanitize_slug (lastName cfg.photosPath)
    let outPath := joinChild cfg.outDir (slug ++ ".html")
    let html := build_carousel_html image_urls (titleOf slug) cfg.interval_ms
    secureWrite cfg.cwd cfg.outDir outPath html fs1

/-! ### Shape predicates for sanitizer outputs -/

/-- No two adjacent underscores (the post-condition of `re.sub(r"_+", "_")`). -/
def NoDubU (l : List Char) : Prop :=
  List.Chain' (fun a b => ¬ (a = '_' ∧ b = '_')) l

/-- Shape of a sanitized stem: nonempty, stem characters only, collapsed
underscore runs, no underscore at either end. -/
def StemOK (st : List Char) : Prop :=
  st ≠ [] ∧ (∀ c ∈ st, isStemChar c = true) ∧ NoDubU st ∧
    st.head? ≠ some '_' ∧ st.getLast? ≠ some '_'

/-- Shape of a sanitized suffix: empty, or a dot followed by lowercase
alphanumerics. -/
def SuffOK (sf : List Char) : Prop :=
  sf = [] ∨ ∃ t, sf = '.' :: t ∧ ∀ c ∈ t, (isLowerAlpha c || isDigitCh c) = true

/-! ### Character-class arithmetic -/

theorem char_le_iff {a b : Char} : a ≤ b ↔ a.toNat ≤ b.toNat := by
  rw [Char.le_def]; rfl

theorem char_eq_iff {a b : Char} : a = b ↔ a.toNat = b.toNat := by
  constructor
  · intro h; rw [h]
  · intro h; exact Char.ext (UInt32.ext h)

theorem isLowerAlpha_iff {c : Char} :
    isLowerAlpha c = true ↔ 97 ≤ c.toNat ∧ c.toNat ≤ 122 := by
  simp [isLowerAlpha, char_le_iff]

theorem isDigitCh_iff {c : Char} :
    isDigitCh c = true ↔ 48 ≤ c.toNat ∧ c.toNat ≤ 57 := by
  simp [isDigitCh, char_le_iff]

theorem isStemChar_iff {c : Char} :
    isStemChar c = true ↔
      (97 ≤ c.toNat ∧ c.toNat ≤ 122) ∨ (48 ≤ c.toNat ∧ c.toNat ≤ 57) ∨
        c.toNat = 95 ∨ c.toNat = 45 := by
  simp [isStemChar, isLowerAlpha_iff, isDigitCh_iff, char_eq_iff]
  tauto

theorem isSuffChar_iff {c : Char} :
    isSuffChar c = true ↔
      (97 ≤ c.toNat ∧ c.toNat ≤ 122) ∨ (48 ≤ c.toNat ∧ c.toNat ≤ 57) ∨
        c.toNat = 46 := by
  simp [isSuffChar, isLowerAlpha_iff, isDigitCh_iff, char_eq_iff]
  tauto

theorem lowerCh_fix {c : Char} (h : ¬ (65 ≤ c.toNat ∧ c.toNat ≤ 90)) :
    lowerCh c = c := by
  rw [lowerCh, if_neg]
  intro hc
  exact h ⟨char_le_iff.mp hc.1, char_le_iff.mp hc.2⟩

/-- Stem characters are untouched by `lower()`. -/
theorem lowerCh_of_stem {c : Char} (h : isStemChar c = true) : lowerCh c = c := by
  rcases isStemChar_iff.mp h with h' | h' | h' | h' <;> exact lowerCh_fix (by omega)

/-- Lowercasing never produces a character the stem filter keeps out of thin
air: the preimage of a stem character is the character itself or its
uppercase form; in particular `lowerCh c = '.'` forces `c = '.'`. -/
theorem lowerCh_eq_dot {c : Char} (h : lowerCh c = '.') : c = '.' := by
  by_cases hg : 'A' ≤ c ∧ c ≤ 'Z'
  · exfalso
    have h1 : 65 ≤ c.toNat := char_le_iff.mp hg.1
    have h2 : c.toNat ≤ 90 := char_le_iff.mp hg.2
    have hv : (Char.ofNat (c.toNat + 32)).toNat = c.toNat + 32 := by
      rw [Char.ofNat, dif_pos (by constructor; omega)]
      rfl
    rw [lowerCh, if_pos hg] at h
    have h46 : (Char.ofNat (c.toNat + 32)).toNat = 46 := by rw [h]; rfl
    omega
  · rw [lowerCh, if_neg hg] at h
    exact h

/-! ### `collapseU` and `stripU` structure -/

theorem collapseU_head? : ∀ (d : Char) (rest : List Char),
    (collapseU (d :: rest)).head? = some d := by
  intro d rest
  induction rest generalizing d with
  | nil => rfl
  | cons e rs ih =>
    rw [collapseU]
    by_cases h : d = '_' ∧ e = '_'
    · rw [if_pos h, ih e, h.1, h.2]
    · rw [if_neg h]
      rfl

theorem mem_collapseU {c : Char} : ∀ {l : List Char}, c ∈ collapseU l → c ∈ l := by
  intro l
  induction l using collapseU.induct with
  | case1 => intro h; exact absurd h (List.not_mem_nil c)
  | case2 d => intro h; exact h
  | case3 d e rs h ih =>
    rw [collapseU, if_pos h]
    intro hm
    exact List.mem_cons_of_mem d (ih hm)
  | case4 d e rs h ih =>
    rw [collapseU, if_neg h]
    intro hm
    rcases List.mem_cons.mp hm with h1 | h1
    · exact h1 ▸ List.mem_cons_self d (e :: rs)
    · exact List.mem_cons_of_mem d (ih h1)

theorem noDubU_collapseU : ∀ l : List Char, NoDubU (collapseU l) := by
  intro l
  induction l using collapseU.induct with
  | case1 => exact List.chain'_nil
  | case2 d => exact List.chain'_singleton d
  | case3 d e rs h ih => rw [collapseU, if_pos h]; exact ih
  | case4 d e rs h ih =>
    rw [collapseU, if_neg h]
    have hh := collapseU_head? e rs
    cases hc : collapseU (e :: rs) with
    | nil => rw [hc] at hh; exact absurd hh (by simp)
    | cons x t =>
      rw [hc] at hh ih
      have hx : x = e := by injection hh
      show List.Chain' _ (d :: x :: t)
      rw [List.chain'_cons]
      exact ⟨by rw [hx]; exact h, ih⟩

theorem collapseU_fix : ∀ {l : List Char}, NoDubU l → collapseU l = l := by
  intro l
  induction l using collapseU.induct with
  | case1 => intro _; rfl
  | case2 d => intro _; rfl
  | case3 d e rs h ih =>
    intro hnd
    exact absurd h (List.chain'_cons.mp hnd).1
  | case4 d e rs h ih =>
    intro hnd
    rw [collapseU, if_neg h, ih (List.chain'_cons.mp hnd).2]

theorem dropWhile_head?_false {p : Char → Bool} :
    ∀ {l : List Char} {c : Char}, (l.dropWhile p).head? = some c → p c = false := by
  intro l
  induction l with
  | nil => intro c h; exact absurd h (by simp)
  | cons a as ih =>
    intro c h
    rw [List.dropWhile_cons] at h
    by_cases hp : p a = true
    · rw [if_pos hp] at h
      exact ih h
    · rw [if_neg hp] at h
      injection h with h'
      rw [← h']
      exact Bool.eq_false_iff.mpr hp

theorem dropWhile_eq_self_of_head {p : Char → Bool} {l : List Char}
    (h : ∀ c, l.head? = some c → p c = false) : l.dropWhile p = l := by
  cases l with
  | nil => rfl
  | cons a as =>
    rw [List.dropWhile_cons, if_neg]
    rw [h a rfl]
    simp

/-- The list `stripU l` is the middle of `l`: `l = u ++ stripU l ++ t` where `u` and
`t` are the stripped runs of underscores. -/
theorem stripU_infix (l : List Char) : ∃ u t, l = u ++ stripU l ++ t := by
  obtain ⟨u, hu⟩ := (List.dropWhile_suffix (l := l) (fun c => c = '_'))
  obtain ⟨v, hv⟩ :=
    (List.dropWhile_suffix (l := (l.dropWhile (fun c => c = '_')).reverse) (fun c => c = '_'))
  refine ⟨u, v.reverse, ?_⟩
  have hmid : l.dropWhile (fun c => c = '_') = stripU l ++ v.reverse := by
    have h2 := congrArg List.reverse hv
    rw [List.reverse_append, List.reverse_reverse] at h2
    exact h2.symm
  rw [List.append_assoc, ← hmid, hu]

theorem mem_stripU {c : Char} {l : List Char} (h : c ∈ stripU l) : c ∈ l := by
  obtain ⟨u, t, hl⟩ := stripU_infix l
  rw [hl]
  exact List.mem_append.mpr (Or.inl (List.mem_append.mpr (Or.inr h)))

theorem noDubU_stripU {l : List Char} (h : NoDubU l) : NoDubU (stripU l) := by
  obtain ⟨u, t, hl⟩ := stripU_infix l
  rw [hl, List.append_assoc] at h
  have h1 : NoDubU (stripU l ++ t) := (List.chain'_append.mp h).2.1
  exact (List.chain'_append.mp h1).1

theorem stripU_head? {l : List Char} : (stripU l).head? ≠ some '_' := by
  intro h
  obtain ⟨v, hv⟩ :=
    (List.dropWhile_suffix (l := (l.dropWhile (fun c => c = '_')).reverse) (fun c => c = '_'))
  have hsp : l.dropWhile (fun c => c = '_') = stripU l ++ v.reverse := by
    have h2 := congrArg List.reverse hv
    rw [List.reverse_append, List.reverse_reverse] at h2
    exact h2.symm
  cases hs : stripU l with
  | nil => rw [hs] at h; exact absurd h (by simp)
  | cons x ts =>
    rw [hs] at h
    have hx : x = '_' := by injection h
    have : (l.dropWhile (fun c => c = '_')).head? = some x := by
      rw [hsp, hs]
      rfl
    have := dropWhile_head?_false this
    rw [hx] at this
    simp at this

theorem stripU_getLast? {l : List Char} : (stripU l).getLast? ≠ some '_' := by
  intro h
  rw [stripU] at h
  rw [List.getLast?_reverse] at h
  have := dropWhile_head?_false h
  simp at this

theorem stripU_fix {l : List Char} (hh : l.head? ≠ some '_')
    (hl : l.getLast? ≠ some '_') : stripU l = l := by
  have h1 : l.dropWhile (fun c => c = '_') = l := by
    apply dropWhile_eq_self_of_head
    intro c hc
    by_cases h : c = '_'
    · exact absurd (h ▸ hc) hh
    · simp [h]
  have h2 : l.reverse.dropWhile (fun c => c = '_') = l.reverse := by
    apply dropWhile_eq_self_of_head
    intro c hc
    rw [List.head?_reverse] at hc
    by_cases h : c = '_'
    · exact absurd (h ▸ hc) hl
    · simp [h]
  rw [stripU, h1, h2, List.reverse_reverse]

/-! ### `cleanStem` characterization -/

theorem mem_cleanStem {c : Char} {l : List Char} (h : c ∈ cleanStem l) :
    isStemChar c = true := by
  rw [cleanStem] at h
  have h1 := mem_collapseU (mem_stripU h)
  exact (List.mem_filter.mp h1).2

theorem cleanStem_ok (l : List Char) :
    (∀ c ∈ cleanStem l, isStemChar c = true) ∧ NoDubU (cleanStem l) ∧
      (cleanStem l).head? ≠ some '_' ∧ (cleanStem l).getLast? ≠ some '_' :=
  ⟨fun _ hc => mem_cleanStem hc,
   noDubU_stripU (noDubU_collapseU _),
   stripU_head?, stripU_getLast?⟩

theorem lowerL_fix {l : List Char} (h : ∀ c ∈ l, isStemChar c = true) :
    lowerL l = l := by
  rw [lowerL]
  rw [List.map_congr_left (fun c hc => lowerCh_of_stem (h c hc))]
  exact List.map_id l

theorem replSpace_fix {l : List Char} (h : ∀ c ∈ l, isStemChar c = true) :
    replSpace l = l := by
  rw [replSpace]
  have : ∀ c ∈ l, (if c = ' ' then '_' else c) = c := by
    intro c hc
    rw [if_neg]
    intro he
    have := isStemChar_iff.mp (h c hc)
    rw [he] at this
    have hsp : (' ').toNat = 32 := rfl
    omega
  rw [List.map_congr_left this]
  exact List.map_id l

theorem filterStem_fix {l : List Char} (h : ∀ c ∈ l, isStemChar c = true) :
    filterStem l = l :=
  List.filter_eq_self.mpr h

/-- The pipeline `cleanStem` is the identity on strings already of the sanitized-stem
shape. -/
theorem cleanStem_fix {l : List Char} (hs : ∀ c ∈ l, isStemChar c = true)
    (hnd : NoDubU l) (hh : l.head? ≠ some '_') (hl : l.getLast? ≠ some '_') :
    cleanStem l = l := by
  rw [cleanStem, lowerL_fix hs, replSpace_fix hs, filterStem_fix hs,
    collapseU_fix hnd, stripU_fix hh hl]

/-! ### `scanDot`, `pySplitExt`, `pyName` -/

theorem scanDot_none {x : List Char} (hx : '.' ∉ x) : scanDot x = none := by
  induction x with
  | nil => rfl
  | cons c cs ih =>
    have hc : ¬ c = '.' := fun h => hx (h ▸ List.mem_cons_self c cs)
    rw [scanDot, if_neg hc, ih (fun h => hx (List.mem_cons_of_mem c h))]
    rfl

theorem scanDot_append {x y : List Char} (hx : '.' ∉ x) :
    scanDot (x ++ '.' :: y) = some (x, y) := by
  induction x with
  | nil => rw [List.nil_append, scanDot, if_pos rfl]
  | cons c cs ih =>
    have hc : ¬ c = '.' := fun h => hx (h ▸ List.mem_cons_self c cs)
    rw [List.cons_append, scanDot, if_neg hc,
      ih (fun h => hx (List.mem_cons_of_mem c h))]
    rfl

theorem scanDot_some {r ext rest : List Char}
    (h : scanDot r = some (ext, rest)) : '.' ∉ ext ∧ r = ext ++ '.' :: rest := by
  induction r generalizing ext with
  | nil => exact absurd h (by rw [scanDot]; simp)
  | cons c cs ih =>
    rw [scanDot] at h
    by_cases hc : c = '.'
    · rw [if_pos hc] at h
      injection h with h'
      injection h' with h1 h2
      subst hc
      rw [← h1, ← h2]
      exact ⟨List.not_mem_nil '.', rfl⟩
    · rw [if_neg hc] at h
      cases hs : scanDot cs with
      | none => rw [hs] at h; exact absurd h (by simp)
      | some p =>
        rw [hs] at h
        obtain ⟨e1, r1⟩ := p
        have h' : (c :: e1, r1) = (ext, rest) := by
          simpa using h
        injection h' with h1 h2
        obtain ⟨ih1, ih2⟩ := ih (h2 ▸ hs)
        constructor
        · rw [← h1]
          intro hm
          rcases List.mem_cons.mp hm with hd | hd
          · exact hc hd.symm
          · exact ih1 hd
        · rw [← h1, ih2, List.cons_append]

/-- A name with no dot splits into itself and an empty suffix. -/
theorem pySplitExt_nodot {n : List Char} (hd : '.' ∉ n) : pySplitExt n = (n, []) := by
  rw [pySplitExt, scanDot_none (fun h => hd (List.mem_reverse.mp h))]

/-- A name of the shape `stem ++ "." ++ ext` with a dot-free nonempty stem
and a dot-free nonempty extension splits at that dot. -/
theorem pySplitExt_clean {st t : List Char} (hst : st ≠ [])
    (ht : t ≠ []) (hd2 : '.' ∉ t) :
    pySplitExt (st ++ '.' :: t) = (st, '.' :: t) := by
  have hrev : (st ++ '.' :: t).reverse = t.reverse ++ '.' :: st.reverse := by
    rw [List.reverse_append, List.reverse_cons, List.append_assoc]
    rfl
  rw [pySplitExt, hrev, scanDot_append (fun h => hd2 (List.mem_reverse.mp h))]
  dsimp only
  rw [if_pos ⟨by simpa using ht, by simpa using hst⟩]
  rw [List.reverse_reverse, List.reverse_reverse]

/-- A name whose only dot is final keeps that dot in the stem and has no
suffix (`Path("a.").suffix == ""`). -/
theorem pySplitExt_enddot {st : List Char} :
    pySplitExt (st ++ ['.']) = (st ++ ['.'], []) := by
  have hrev : (st ++ ['.']).reverse = '.' :: st.reverse := by
    rw [List.reverse_append]
    rfl
  rw [pySplitExt, hrev, scanDot]
  rw [if_pos rfl]
  dsimp only
  simp

/-- The suffix computed by `pySplitExt` is empty or a dot followed by a
dot-free tail. -/
theorem pySplitExt_suffix (name : List Char) :
    (pySplitExt name).2 = [] ∨
      ∃ t, (pySplitExt name).2 = '.' :: t ∧ '.' ∉ t := by
  rw [pySplitExt]
  cases hs : scanDot name.reverse with
  | none => simp
  | some p =>
    obtain ⟨ext, rest⟩ := p
    dsimp only
    by_cases hc : ext ≠ [] ∧ rest ≠ []
    · rw [if_pos hc]
      right
      refine ⟨ext.reverse, rfl, ?_⟩
      intro hm
      exact (scanDot_some hs).1 (List.mem_reverse.mp hm)
    · rw [if_neg hc]
      simp

theorem splitSlash_no_slash {s : List Char} (h : '/' ∉ s) : splitSlash s = [s] := by
  induction s with
  | nil => rfl
  | cons c cs ih =>
    have hc : ¬ c = '/' := fun hc => h (hc ▸ List.mem_cons_self c cs)
    rw [splitSlash, if_neg hc, ih (fun hm => h (List.mem_cons_of_mem c hm))]

/-- Fact that `Path(s).name = s` for a nonempty, slash-free `s` other than `"."`. -/
theorem pyName_clean {s : List Char} (h1 : '/' ∉ s) (h2 : s ≠ [])
    (h3 : s ≠ ['.']) : pyName s = s := by
  rw [pyName, pathParts, splitSlash_no_slash h1]
  rw [List.filter_cons]
  rw [if_pos (by simp [h2, h3])]
  rfl

/-! ### Shape of `sanitize_filename` output -/

theorem lowerCh_of_ld {c : Char} (h : (isLowerAlpha c || isDigitCh c) = true) :
    lowerCh c = c := by
  rw [Bool.or_eq_true, isLowerAlpha_iff, isDigitCh_iff] at h
  exact lowerCh_fix (by omega)

theorem ld_isSuffChar {c : Char} (h : (isLowerAlpha c || isDigitCh c) = true) :
    isSuffChar c = true := by
  rw [isSuffChar, h]
  rfl

theorem ld_ne_dot {c : Char} (h : (isLowerAlpha c || isDigitCh c) = true) :
    ¬ c = '.' := by
  rw [Bool.or_eq_true, isLowerAlpha_iff, isDigitCh_iff] at h
  intro he
  have : c.toNat = 46 := by rw [he]; rfl
  omega

theorem stem_ne_dot {c : Char} (h : isStemChar c = true) : ¬ c = '.' := by
  rw [isStemChar_iff] at h
  intro he
  have : c.toNat = 46 := by rw [he]; rfl
  omega

theorem stem_ne_slash {c : Char} (h : isStemChar c = true) : ¬ c = '/' := by
  rw [isStemChar_iff] at h
  intro he
  have : c.toNat = 47 := by rw [he]; rfl
  omega

/-- Characters surviving the suffix filter of a dot-free tail are lowercase
alphanumerics. -/
theorem suffOK_filter {t : List Char} (hd : '.' ∉ t) :
    ∀ c ∈ filterSuff (lowerL t), (isLowerAlpha c || isDigitCh c) = true := by
  intro c hc
  have h1 : isSuffChar c = true := (List.mem_filter.mp hc).2
  have h2 : c ∈ lowerL t := (List.mem_filter.mp hc).1
  obtain ⟨c0, hc0, hlc⟩ := List.mem_map.mp h2
  rw [isSuffChar, Bool.or_eq_true] at h1
  rcases h1 with h1 | h1
  · exact h1
  · exfalso
    have hcd : c = '.' := of_decide_eq_true h1
    rw [← hlc] at hcd
    exact hd ((lowerCh_eq_dot hcd) ▸ hc0)

/-- Every output of `sanitize_filename` decomposes into a sanitized stem and
a sanitized suffix. -/
theorem sanitize_shape (s : String) :
    ∃ st sf, (sanitize_filename s).data = st ++ sf ∧ StemOK st ∧ SuffOK sf := by
  have hdata : (sanitize_filename s).data =
      (if cleanStem (pySplitExt (pyName s.data)).1 = [] then "file".data
        else cleanStem (pySplitExt (pyName s.data)).1) ++
        filterSuff (lowerL (pySplitExt (pyName s.data)).2) := rfl
  refine ⟨_, _, hdata, ?_, ?_⟩
  · by_cases hA : cleanStem (pySplitExt (pyName s.data)).1 = []
    · rw [if_pos hA]
      refine ⟨by decide, by decide, ?_, by decide, by decide⟩
      unfold NoDubU
      rw [show ("file".data) = ['f', 'i', 'l', 'e'] from rfl]
      rw [List.chain'_cons, List.chain'_cons, List.chain'_cons]
      exact ⟨by decide, by decide, by decide, List.chain'_singleton 'e'⟩
    · rw [if_neg hA]
      obtain ⟨h1, h2, h3, h4⟩ := cleanStem_ok (pySplitExt (pyName s.data)).1
      exact ⟨hA, h1, h2, h3, h4⟩
  · rcases pySplitExt_suffix (pyName s.data) with h | ⟨t, ht, hd⟩
    · rw [h]
      exact Or.inl rfl
    · rw [ht]
      right
      have hcons : lowerL ('.' :: t) = '.' :: lowerL t := by
        rw [lowerL, List.map_cons]
        rw [show lowerCh '.' = '.' by decide]
        rfl
      rw [hcons, filterSuff, List.filter_cons, if_pos (by decide)]
      exact ⟨filterSuff (lowerL t), rfl, suffOK_filter hd⟩

theorem takeWhile_append_all {p : Char → Bool} :
    ∀ {a b : List Char}, (∀ c ∈ a, p c = true) →
      (∀ c, b.head? = some c → p c = false) →
      (a ++ b).takeWhile p = a ∧ (a ++ b).dropWhile p = b := by
  intro a
  induction a with
  | nil =>
    intro b _ hb
    cases b with
    | nil => exact ⟨rfl, rfl⟩
    | cons x xs =>
      rw [List.nil_append, List.takeWhile_cons, List.dropWhile_cons]
      rw [hb x rfl]
      exact ⟨rfl, rfl⟩
  | cons x xs ih =>
    intro b ha hb
    rw [List.cons_append, List.takeWhile_cons, List.dropWhile_cons]
    rw [ha x (List.mem_cons_self x xs)]
    obtain ⟨h1, h2⟩ := ih (fun c hc => ha c (List.mem_cons_of_mem x hc)) hb
    simp only [if_true]
    rw [h1, h2]
    exact ⟨rfl, rfl⟩

/-- C3: for every input string, `sanitize_filename` returns (it is a total
function of the model) and its result matches the regex disjunction
`^[a-z0-9_-]+\.[a-z0-9.]*$` or `^[a-z0-9_-]+$` — a nonempty stem of allowed
characters, optionally followed by a dot-led suffix of allowed characters. -/
theorem c3_sanitize_output_matches_pattern (s : String) :
    matchesPattern (sanitize_filename s) = true := by
  obtain ⟨st, sf, hdata, hstem, hsf⟩ := sanitize_shape s
  rw [matchesPattern]
  have hb : ∀ c, sf.head? = some c → isStemChar c = false := by
    intro c hc
    rcases hsf with h | ⟨t, ht, hall⟩
    · rw [h] at hc
      exact absurd hc (by simp)
    · rw [ht] at hc
      have hcd : c = '.' := by
        injection hc with h'
        exact h'.symm
      rw [hcd]
      decide
  obtain ⟨h1, h2⟩ := takeWhile_append_all hstem.2.1 hb
  rw [hdata] at *
  rw [h1, h2]
  rw [Bool.and_eq_true, decide_eq_true_iff]
  refine ⟨hstem.1, ?_⟩
  rcases hsf with h | ⟨t, ht, hall⟩
  · rw [h]
  · rw [ht]
    rw [Bool.and_eq_true, decide_eq_true_iff]
    exact ⟨rfl, List.all_eq_true.mpr (fun c hc => ld_isSuffChar (hall c hc))⟩

/-- The function `sanitize_filename` is the identity on any string of the sanitized
shape, as long as its suffix is not a bare dot. -/
theorem sanitize_fix {st sf : List Char} (hstem : StemOK st) (hsf : SuffOK sf)
    (hne : sf ≠ ['.']) :
    sanitize_filename (String.mk (st ++ sf)) = String.mk (st ++ sf) := by
  obtain ⟨hst, hsc, hnd, hhd, hlt⟩ := hstem
  have hsfc : ∀ c ∈ sf, c = '.' ∨ (isLowerAlpha c || isDigitCh c) = true := by
    intro c hc
    rcases hsf with h | ⟨t, ht, hall⟩
    · rw [h] at hc
      exact absurd hc (List.not_mem_nil c)
    · rw [ht] at hc
      rcases List.mem_cons.mp hc with h | h
      · exact Or.inl h
      · exact Or.inr (hall c h)
  have hnoslash : '/' ∉ st ++ sf := by
    intro hm
    rcases List.mem_append.mp hm with h | h
    · exact stem_ne_slash (hsc '/' h) rfl
    · rcases hsfc '/' h with h' | h'
      · exact absurd h' (by decide)
      · exact absurd h' (by decide)
  have hnonnil : st ++ sf ≠ [] := by
    intro h
    exact hst (List.append_eq_nil.mp h).1
  have hnotdot : st ++ sf ≠ ['.'] := by
    intro h
    cases st with
    | nil => exact hst rfl
    | cons x xs =>
      rw [List.cons_append] at h
      injection h with h1 h2
      exact stem_ne_dot (hsc x (List.mem_cons_self x xs)) h1
  have hname : pyName (String.mk (st ++ sf)).data = st ++ sf :=
    pyName_clean hnoslash hnonnil hnotdot
  have hstdot : '.' ∉ st := fun hm => stem_ne_dot (hsc '.' hm) rfl
  have hfixst : cleanStem st = st := cleanStem_fix hsc hnd hhd hlt
  have hdef : ∀ y : String, sanitize_filename y = String.mk
      ((if cleanStem (pySplitExt (pyName y.data)).1 = [] then "file".data
        else cleanStem (pySplitExt (pyName y.data)).1) ++
        filterSuff (lowerL (pySplitExt (pyName y.data)).2)) := fun y => rfl
  rcases hsf with hnil | ⟨t, ht, hall⟩
  · subst hnil
    rw [List.append_nil] at hname ⊢
    rw [hdef, hname, pySplitExt_nodot hstdot]
    dsimp only
    rw [hfixst, if_neg hst]
    rw [show filterSuff (lowerL []) = [] from rfl, List.append_nil]
  · have htne : t ≠ [] := by
      intro h
      rw [h] at ht
      exact hne ht
    have htdot : '.' ∉ t := fun hm => ld_ne_dot (hall '.' hm) rfl
    have hsplit : pySplitExt (st ++ sf) = (st, sf) := by
      rw [ht]
      exact pySplitExt_clean hst htne htdot
    have hlow : lowerL t = t := by
      rw [lowerL, List.map_congr_left (fun c hc => lowerCh_of_ld (hall c hc))]
      exact List.map_id t
    have hfil : filterSuff t = t :=
      List.filter_eq_self.mpr (fun c hc => ld_isSuffChar (hall c hc))
    have hcons : lowerL ('.' :: t) = '.' :: lowerL t := by
      rw [lowerL, List.map_cons, show lowerCh '.' = '.' by decide]
      rfl
    rw [hdef, hname, hsplit]
    dsimp only
    rw [hfixst, if_neg hst, ht, hcons, hlow]
    rw [filterSuff, List.filter_cons, if_pos (by decide)]
    rw [show List.filter isSuffChar t = filterSuff t from rfl, hfil]

/-- C2 counterexample: `sanitize_filename` is not idempotent.
`sanitize_filename "a.!" = "a."` (the suffix `.!` filters to a bare dot),
but `sanitize_filename "a." = "a"` (a trailing dot is not an extension
separator for `pathlib`, and the stem filter then deletes it). -/
theorem c2_sanitize_not_idempotent :
    ¬ (sanitize_filename (sanitize_filename "a.!") = sanitize_filename "a.!") := by
  decide

/-- C2 (amended): `sanitize_filename` is idempotent on every input whose
sanitized form does not end in a dot; the sole exception to the claimed
idempotence law is an input whose extension sanitizes to the bare dot. -/
theorem c2_sanitize_idempotent_unless_trailing_dot (x : String)
    (h : (sanitize_filename x).data.getLast? ≠ some '.') :
    sanitize_filename (sanitize_filename x) = sanitize_filename x := by
  obtain ⟨st, sf, hdata, hstem, hsf⟩ := sanitize_shape x
  have hne : sf ≠ ['.'] := by
    intro he
    rw [he] at hdata
    apply h
    rw [hdata]
    exact List.getLast?_concat _
  have hx : sanitize_filename x = String.mk (st ++ sf) := by
    rw [← hdata]
  rw [hx, sanitize_fix hstem hsf hne]

/-- C2 witness: an ordinary filename satisfies the amended hypothesis and
the idempotence conclusion. -/
theorem c2_witness :
    (sanitize_filename "My File.PNG").data.getLast? ≠ some '.' ∧
      sanitize_filename (sanitize_filename "My File.PNG") =
        sanitize_filename "My File.PNG" :=
  ⟨by decide, c2_sanitize_idempotent_unless_trailing_dot "My File.PNG" (by decide)⟩

/-! ### `unique_path` correctness -/

theorem digChar_toNat {n : Nat} (h : n < 10) : (digChar n).toNat = 48 + n := by
  interval_cases n <;> rfl

theorem decVal_append_digit (l : List Char) (c : Char) :
    decVal (l ++ [c]) = 10 * decVal l + (c.toNat - 48) := by
  rw [decVal, List.foldl_append]
  rfl

theorem decVal_decRepAux : ∀ {fuel n : Nat}, n < fuel →
    decVal (decRepAux fuel n) = n := by
  intro fuel
  induction fuel with
  | zero => intro n h; omega
  | succ fuel ih =>
    intro n h
    rw [decRepAux]
    by_cases h10 : n < 10
    · rw [if_pos h10]
      have hd := digChar_toNat h10
      rw [decVal, List.foldl_cons, List.foldl_nil]
      omega
    · rw [if_neg h10]
      rw [decVal_append_digit, ih (by omega)]
      have hd : (digChar (n % 10)).toNat = 48 + n % 10 :=
        digChar_toNat (Nat.mod_lt _ (by norm_num))
      omega

theorem decRepr_inj {m n : Nat} (h : decRepr m = decRepr n) : m = n := by
  have h1 := decVal_decRepAux (show m < m + 1 by omega)
  have h2 := decVal_decRepAux (show n < n + 1 by omega)
  rw [decRepr, decRepr] at h
  rw [← h1, ← h2, h]

theorem candName_inj {stem suffix : List Char} {i j : Nat}
    (h : candName stem suffix i = candName stem suffix j) : i = j := by
  have hd : stem ++ '_' :: (decRepr i ++ suffix) =
      stem ++ '_' :: (decRepr j ++ suffix) := congrArg String.data h
  have h1 := List.append_cancel_left hd
  injection h1 with _ h2
  exact decRepr_inj (List.append_cancel_right h2)

/-- Pigeonhole: among the first `names.length + 1` candidates some name is
free, so the `while True` loop of `unique_path` terminates within the chosen
fuel. -/
theorem exists_free_cand (names : List String) (stem suffix : List Char) :
    ∃ j, j < names.length + 1 ∧ candName stem suffix (1 + j) ∉ names := by
  by_contra hcon
  push_neg at hcon
  have hsub : (Finset.range (names.length + 1)).image
      (fun j => candName stem suffix (1 + j)) ⊆ names.toFinset := by
    intro x hx
    obtain ⟨j, hj, hx'⟩ := Finset.mem_image.mp hx
    rw [← hx']
    exact List.mem_toFinset.mpr (hcon j (Finset.mem_range.mp hj))
  have hcard : ((Finset.range (names.length + 1)).image
      (fun j => candName stem suffix (1 + j))).card = names.length + 1 := by
    rw [Finset.card_image_of_injOn, Finset.card_range]
    intro a _ b _ hab
    have := candName_inj hab
    omega
  have h1 := Finset.card_le_card hsub
  have h2 := List.toFinset_card_le names
  omega

theorem uniqueAux_spec (names : List String) (stem suffix : List Char) :
    ∀ (fuel i : Nat),
      (∃ j, j < fuel ∧ candName stem suffix (i + j) ∉ names) →
      ∃ N, uniqueAux names stem suffix i fuel = candName stem suffix N ∧
        i ≤ N ∧ candName stem suffix N ∉ names ∧
        ∀ m, i ≤ m → m < N → candName stem suffix m ∈ names := by
  intro fuel
  induction fuel with
  | zero =>
    intro i ⟨j, hj, _⟩
    omega
  | succ fuel ih =>
    intro i ⟨j, hj, hfree⟩
    rw [uniqueAux]
    by_cases hmem : candName stem suffix i ∈ names
    · rw [if_pos hmem]
      have hj0 : j ≠ 0 := by
        intro h
        rw [h, Nat.add_zero] at hfree
        exact hfree hmem
      obtain ⟨N, hres, hge, hfr, hmin⟩ := ih (i + 1)
        ⟨j - 1, by omega, by
          have : i + 1 + (j - 1) = i + j := by omega
          rw [this]
          exact hfree⟩
      refine ⟨N, hres, by omega, hfr, ?_⟩
      intro m hm1 hm2
      by_cases hmi : m = i
      · rw [hmi]
        exact hmem
      · exact hmin m (by omega) hm2
    · rw [if_neg hmem]
      exact ⟨i, rfl, Nat.le_refl i, hmem, fun m h1 h2 => absurd (Nat.lt_of_le_of_lt h1 h2) (Nat.lt_irrefl i)⟩

/-- C4: `unique_path` always returns a name absent from the directory; it
returns its input unchanged when the input is absent, and otherwise returns
`f"{stem}_{N}{suffix}"` for the smallest positive `N` whose candidate is
absent (existence checked sequentially from `_1`). -/
theorem c4_unique_path_first_free (names : List String) (n : String) :
    unique_path names n ∉ names ∧
      (n ∉ names → unique_path names n = n) ∧
      (n ∈ names → ∃ N, 1 ≤ N ∧
        unique_path names n =
          candName (pySplitExt n.data).1 (pySplitExt n.data).2 N ∧
        candName (pySplitExt n.data).1 (pySplitExt n.data).2 N ∉ names ∧
        ∀ m, 1 ≤ m → m < N →
          candName (pySplitExt n.data).1 (pySplitExt n.data).2 m ∈ names) := by
  by_cases hmem : n ∈ names
  · obtain ⟨j, hj, hfree⟩ := exists_free_cand names (pySplitExt n.data).1 (pySplitExt n.data).2
    obtain ⟨N, hres, hge, hfr, hmin⟩ :=
      uniqueAux_spec names (pySplitExt n.data).1 (pySplitExt n.data).2
        (names.length + 1) 1 ⟨j, hj, hfree⟩
    have hup : unique_path names n =
        uniqueAux names (pySplitExt n.data).1 (pySplitExt n.data).2 1
          (names.length + 1) := by
      rw [unique_path, if_pos hmem]
    refine ⟨?_, fun h => absurd hmem h, fun _ => ⟨N, hge, ?_, hfr, hmin⟩⟩
    · rw [hup, hres]
      exact hfr
    · rw [hup, hres]
  · rw [unique_path, if_neg hmem]
    exact ⟨hmem, fun _ => rfl, fun h => absurd h hmem⟩

/-- C4 witness: with `a.png` and `a_1.png` present, the resolver returns a
fresh name for `a.png` and leaves the absent `b.png` unchanged. -/
theorem c4_witness :
    unique_path ["a.png", "a_1.png"] "a.png" ∉ ["a.png", "a_1.png"] ∧
      unique_path ["a.png", "a_1.png"] "b.png" = "b.png" :=
  ⟨(c4_unique_path_first_free ["a.png", "a_1.png"] "a.png").1,
   (c4_unique_path_first_free ["a.png", "a_1.png"] "b.png").2.1 (by decide)⟩

/-! ### `rename_files` invariants -/

theorem unique_path_not_mem (names : List String) (n : String) :
    unique_path names n ∉ names := by
  by_cases hmem : n ∈ names
  · obtain ⟨j, hj, hfree⟩ :=
      exists_free_cand names (pySplitExt n.data).1 (pySplitExt n.data).2
    obtain ⟨N, hres, _, hfr, _⟩ :=
      uniqueAux_spec names (pySplitExt n.data).1 (pySplitExt n.data).2
        (names.length + 1) 1 ⟨j, hj, hfree⟩
    rw [unique_path, if_pos hmem, hres]
    exact hfr
  · rw [unique_path, if_neg hmem]
    exact hmem

theorem renameStep_clob {st : RenState} {e : Entry} (h : st.clob = false) :
    (renameStep st e).clob = false := by
  rw [renameStep]
  by_cases h1 : ¬ e.is_file
  · rw [if_pos h1]
    exact h
  · rw [if_neg h1]
    by_cases h2 : e.name = unique_path (st.cur.map (fun x => x.name))
        (sanitize_filename e.name)
    · rw [if_pos h2]
      exact h
    · rw [if_neg h2]
      dsimp only
      rw [h, Bool.false_or, decide_eq_false]
      exact unique_path_not_mem _ _

theorem renameStep_proj (st : RenState) (e : Entry) :
    (renameStep st e).cur.map (fun x => (x.is_file, x.content)) =
      st.cur.map (fun x => (x.is_file, x.content)) := by
  rw [renameStep]
  by_cases h1 : ¬ e.is_file
  · rw [if_pos h1]
  · rw [if_neg h1]
    by_cases h2 : e.name = unique_path (st.cur.map (fun x => x.name))
        (sanitize_filename e.name)
    · rw [if_pos h2]
    · rw [if_neg h2]
      dsimp only
      rw [List.map_map]
      apply List.map_congr_left
      intro x _
      by_cases h3 : x.name = e.name
      · simp [h3]
      · simp [h3]

theorem renameFold_inv (snapshot : List Entry) :
    ∀ st : RenState, st.clob = false →
      (snapshot.foldl renameStep st).clob = false ∧
      (snapshot.foldl renameStep st).cur.map (fun x => (x.is_file, x.content)) =
        st.cur.map (fun x => (x.is_file, x.content)) := by
  induction snapshot with
  | nil => intro st h; exact ⟨h, rfl⟩
  | cons e es ih =>
    intro st h
    rw [List.foldl_cons]
    obtain ⟨ih1, ih2⟩ := ih (renameStep st e) (renameStep_clob h)
    exact ⟨ih1, ih2.trans (renameStep_proj st e)⟩

/-- C9: a rename pass never overwrites: every rename it executes targets a
name absent from the directory at that moment (the `clob` flag, which
records a target existing at rename time, stays `false`), and the pass
preserves the multiset of file contents — even their order in the listing —
and the number of entries. -/
theorem c9_rename_never_clobbers (d : List Entry) :
    (rename_files d).clob = false ∧
      (rename_files d).cur.map (fun e => (e.is_file, e.content)) =
        d.map (fun e => (e.is_file, e.content)) ∧
      (rename_files d).cur.length = d.length := by
  obtain ⟨h1, h2⟩ := renameFold_inv d ⟨d, [], false⟩ rfl
  refine ⟨h1, h2, ?_⟩
  have := congrArg List.length h2
  rw [List.length_map, List.length_map] at this
  exact this

/-- C1 evaluation at the failing input: `a.png` is already sanitized, yet
`rename_files` renames it — `path.with_name(sanitized)` is the file itself,
which exists, so `unique_path` hands back `a_1.png` and the pass logs one
rename instead of zero. -/
theorem c1_rename_renames_already_sanitized :
    sanitize_filename "a.png" = "a.png" ∧
      rename_files [⟨"a.png", true, 0⟩] =
        ⟨[⟨"a_1.png", true, 0⟩], [("a.png", "a_1.png")], false⟩ := by
  exact ⟨by decide, by decide⟩

/-! ### Slug shape and the security check -/

theorem sanitize_slug_ok (s : String) :
    sanitize_slug s ≠ "" ∧ ∀ c ∈ (sanitize_slug s).data, isStemChar c = true := by
  rw [sanitize_slug]
  by_cases h : cleanStem s.data = []
  · rw [if_pos h]
    exact ⟨by decide, by decide⟩
  · rw [if_neg h]
    constructor
    · intro he
      exact h (congrArg String.data he)
    · intro c hc
      exact mem_cleanStem hc

theorem normComps_append_normal {c : String} (hc1 : ¬ (c = "" ∨ c = "."))
    (hc2 : ¬ c = "..") :
    ∀ (l : List String) (acc : List String),
      normComps acc (l ++ [c]) = normComps acc l ++ [c] := by
  intro l
  induction l with
  | nil =>
    intro acc
    rw [List.nil_append]
    simp only [normComps, if_neg hc1, if_neg hc2]
  | cons d ds ih =>
    intro acc
    rw [List.cons_append]
    simp only [normComps]
    by_cases h1 : d = "" ∨ d = "."
    · rw [if_pos h1, if_pos h1, ih]
    · rw [if_neg h1, if_neg h1]
      by_cases h2 : d = ".."
      · rw [if_pos h2, if_pos h2, ih]
      · rw [if_neg h2, if_neg h2, ih]

theorem string_ne_of_data {s : String} {l : List Char} (h : s.data ≠ l) :
    s ≠ String.mk l := by
  intro he
  exact h (congrArg String.data he)

/-- Joining a slash-free, non-dot child onto a directory appends exactly one
component. -/
theorem joinChild_single (p : PPath) {s : String} (h1 : '/' ∉ s.data)
    (h2 : s.data ≠ []) (h3 : s.data ≠ ['.']) :
    joinChild p s = ⟨p.rooted, p.comps ++ [s]⟩ := by
  rw [joinChild, pathParts, splitSlash_no_slash h1, List.filter_cons,
    if_pos (by simp [h2, h3])]
  rfl

/-- Resolving `dir / child` appends the child to the resolved directory when
the child is a plain component (not empty, `.` or `..`). -/
theorem resolvePath_joinChild (cwd p : PPath) {s : String} (h1 : '/' ∉ s.data)
    (h2 : s.data ≠ []) (h3 : s.data ≠ ['.']) (h4 : s.data ≠ ['.', '.']) :
    resolvePath cwd (joinChild p s) = ⟨true, (resolvePath cwd p).comps ++ [s]⟩ := by
  rw [joinChild_single p h1 h2 h3, resolvePath, resolvePath]
  have hns : ¬ (s = "" ∨ s = ".") := by
    rintro (h | h)
    · exact h2 (by rw [h])
    · exact h3 (by rw [h])
  have hnd : ¬ s = ".." := fun h => h4 (by rw [h])
  show PPath.mk true _ = PPath.mk true _
  congr 1
  show normComps [] (_ ++ (p.comps ++ [s])) = _
  rw [← List.append_assoc]
  exact normComps_append_normal hns hnd _ []

theorem parentOf_append_single (a : PPath) (s : String) :
    parentOf ⟨true, a.comps⟩ ⟨true, a.comps ++ [s]⟩ = true := by
  simp [parentOf, List.take_left, List.length_append]

/-- The step `secureWrite` accepts a direct child of the output directory and
appends the write. -/
theorem secureWrite_child (cwd outDir : PPath) {s : String} (content : String)
    (fs : FS) (h1 : '/' ∉ s.data) (h2 : s.data ≠ []) (h3 : s.data ≠ ['.'])
    (h4 : s.data ≠ ['.', '.']) :
    secureWrite cwd outDir (joinChild outDir s) content fs =
      (Except.ok (joinChild outDir s),
        { fs with written := fs.written ++ [(joinChild outDir s, content)] }) := by
  have hcond : (parentOf (resolvePath cwd outDir)
        (resolvePath cwd (joinChild outDir s)) ||
      decide (resolvePath cwd (joinChild outDir s) = resolvePath cwd outDir)) =
        true := by
    rw [resolvePath_joinChild cwd outDir h1 h2 h3 h4, Bool.or_eq_true]
    left
    exact parentOf_append_single (resolvePath cwd outDir) s
  rw [secureWrite, if_pos hcond]

/-- The output filename `slug + ".html"` is a single plain path component. -/
theorem slugHtml_component (s : String) :
    '/' ∉ (sanitize_slug s ++ ".html").data ∧
      (sanitize_slug s ++ ".html").data ≠ [] ∧
      (sanitize_slug s ++ ".html").data ≠ ['.'] ∧
      (sanitize_slug s ++ ".html").data ≠ ['.', '.'] := by
  obtain ⟨hne, hall⟩ := sanitize_slug_ok s
  have hdata : (sanitize_slug s ++ ".html").data =
      (sanitize_slug s).data ++ ".html".data := String.data_append _ _
  obtain ⟨c, rest, hcr⟩ : ∃ c rest, (sanitize_slug s).data = c :: rest := by
    cases hsd : (sanitize_slug s).data with
    | nil =>
      exfalso
      apply hne
      have : sanitize_slug s = String.mk (sanitize_slug s).data := rfl
      rw [this, hsd]
    | cons c rest => exact ⟨c, rest, rfl⟩
  have hcstem : isStemChar c = true := hall c (hcr ▸ List.mem_cons_self c rest)
  rw [hdata, hcr]
  refine ⟨?_, by simp, ?_, ?_⟩
  · intro hm
    rcases List.mem_cons.mp hm with h | h
    · exact stem_ne_slash hcstem h.symm
    · rcases List.mem_append.mp h with h' | h'
      · exact stem_ne_slash (hall '/' (hcr ▸ List.mem_cons_of_mem c h')) rfl
      · exact absurd h' (by decide)
  · intro he
    injection he with he1 _
    exact stem_ne_dot hcstem he1
  · intro he
    injection he with he1 _
    exact stem_ne_dot hcstem he1

/-- With a valid photos directory the emitter always reaches the write: the
computed output path never escapes the output directory. -/
theorem parse_succeeds (cfg : Config) (fs : FS) (d : List Entry)
    (h : fs.photosDir = some d) :
    (parse_photos_to_carousel_html cfg fs).1 =
      Except.ok (joinChild cfg.outDir
        (sanitize_slug (lastName cfg.photosPath) ++ ".html")) := by
  obtain ⟨pd, wr⟩ := fs
  have hpd : pd = some d := h
  subst hpd
  obtain ⟨hc1, hc2, hc3, hc4⟩ := slugHtml_component (lastName cfg.photosPath)
  show (secureWrite cfg.cwd cfg.outDir
      (joinChild cfg.outDir (sanitize_slug (lastName cfg.photosPath) ++ ".html"))
      _ _).1 = _
  rw [secureWrite_child cfg.cwd cfg.outDir _ _ hc1 hc2 hc3 hc4]

/-! ### Claim theorems for the emitter -/

theorem activeIdx_if_zero (markOf : Nat → String) (hm0 : markOf 0 ≠ "")
    (hms : ∀ i, i ≠ 0 → markOf i = "") (n : Nat) :
    activeIdx markOf n = if n = 0 then [] else [0] := by
  cases n with
  | zero => rfl
  | succ m =>
    rw [if_neg (Nat.succ_ne_zero m)]
    rw [activeIdx, List.range_succ_eq_map, List.filter_cons]
    have h0 : decide (markOf 0 ≠ "") = true := decide_eq_true hm0
    rw [h0]
    have hmap : ((List.range m).map Nat.succ).filter
        (fun i => decide (markOf i ≠ "")) = [] := by
      rw [List.filter_eq_nil_iff]
      intro a ha
      obtain ⟨b, _, hb⟩ := List.mem_map.mp ha
      rw [← hb]
      simp [hms (Nat.succ b) (Nat.succ_ne_zero b)]
    rw [hmap]
    simp

/-- C5: for every URL list, the emitter builds exactly as many slide
fragments as indicator fragments, both one per qualifying file; exactly the
index-0 fragment of each artifact carries the conditional active marker
when the list is nonempty, and no fragment does when it is empty; and with
zero qualifying files the emitter still succeeds (it reaches the write with
both fragment lists empty, rather than raising). -/
theorem c5_emitter_invariant :
    (∀ urls : List String,
      (slide_lines urls).length = urls.length ∧
      (indicators_lines urls).length = urls.length ∧
      activeIdx slideActiveStr urls.length =
        (if urls.length = 0 then [] else [0]) ∧
      activeIdx indicatorCls urls.length =
        (if urls.length = 0 then [] else [0])) ∧
    (∀ (cfg : Config) (fs : FS) (d : List Entry), fs.photosDir = some d →
      sortedPngs (rename_files d).cur = [] →
      (parse_photos_to_carousel_html cfg fs).1 =
        Except.ok (joinChild cfg.outDir
          (sanitize_slug (lastName cfg.photosPath) ++ ".html")) ∧
      slide_lines ((sortedPngs (rename_files d).cur).map
        (mkUrl cfg.baseUrl cfg.photosPath)) = [] ∧
      indicators_lines ((sortedPngs (rename_files d).cur).map
        (mkUrl cfg.baseUrl cfg.photosPath)) = []) := by
  constructor
  · intro urls
    refine ⟨?_, ?_, ?_, ?_⟩
    · rw [slide_lines, List.length_map, List.enum_length]
    · rw [indicators_lines, List.length_map, List.length_range]
    · exact activeIdx_if_zero slideActiveStr (by decide)
        (fun i hi => by rw [slideActiveStr, if_neg hi]) urls.length
    · exact activeIdx_if_zero indicatorCls (by decide)
        (fun i hi => by rw [indicatorCls, if_neg hi]) urls.length
  · intro cfg fs d h hempty
    refine ⟨parse_succeeds cfg fs d h, ?_, ?_⟩
    · rw [hempty]
      rfl
    · rw [hempty]
      rfl

/-- C5 witness: a concrete empty photos directory emits successfully with
empty artifacts, and a two-URL list gets two fragments with only index 0
active. -/
theorem c5_witness :
    ((slide_lines ["u", "v"]).length = 2 ∧
      activeIdx indicatorCls 2 = [0]) ∧
    (parse_photos_to_carousel_html
        ⟨⟨false, ["photos"]⟩, "https://x/", ⟨false, ["out"]⟩, 4000, ⟨true, ["h"]⟩⟩
        ⟨some [], []⟩).1 =
      Except.ok (joinChild ⟨false, ["out"]⟩ (sanitize_slug "photos" ++ ".html")) := by
  constructor
  · exact ⟨((c5_emitter_invariant.1 ["u", "v"]).1 : _),
      by simpa using (c5_emitter_invariant.1 ["u", "v"]).2.2.2⟩
  · exact ((c5_emitter_invariant.2
      ⟨⟨false, ["photos"]⟩, "https://x/", ⟨false, ["out"]⟩, 4000, ⟨true, ["h"]⟩⟩
      ⟨some [], []⟩ [] rfl (by decide)).1 : _)

/-- C6: the emitter's scan selects exactly the regular files whose
`pathlib` suffix is `.png` up to ASCII case, and arranges their names in
ascending lexicographic (codepoint) order — the order of `<` on `String`
is the lexicographic order on the underlying character codes. -/
theorem c6_scan_selects_and_sorts (d : List Entry) :
    List.Sorted (fun a b : String => a ≤ b) (sortedPngs d) ∧
      (sortedPngs d).Perm ((d.filter qualifies).map (fun e => e.name)) ∧
      (∀ x, x ∈ sortedPngs d ↔
        ∃ e ∈ d, e.name = x ∧ e.is_file = true ∧
          String.mk (lowerL (pySplitExt e.name.data).2) = ".png") ∧
      (∀ a b : String, a < b ↔ a.data < b.data) := by
  refine ⟨List.sorted_insertionSort _ _, List.perm_insertionSort _ _, ?_, ?_⟩
  · intro x
    rw [sortedPngs, List.mem_insertionSort]
    constructor
    · intro hx
      obtain ⟨e, he, hname⟩ := List.mem_map.mp hx
      obtain ⟨hed, hq⟩ := List.mem_filter.mp he
      rw [qualifies, Bool.and_eq_true] at hq
      exact ⟨e, hed, hname, hq.1, beq_iff_eq.mp hq.2⟩
    · intro ⟨e, hed, hname, hf, hsfx⟩
      apply List.mem_map.mpr
      refine ⟨e, List.mem_filter.mpr ⟨hed, ?_⟩, hname⟩
      rw [qualifies, Bool.and_eq_true]
      exact ⟨hf, beq_iff_eq.mpr hsfx⟩
  · intro a b
    rw [String.lt_iff_toList_lt]
    exact Iff.rfl

/-- C7: a missing or non-directory photos path makes both the rename pass
and the emitter fail with the invalid-argument error, performing no rename
and no write — the filesystem state is returned unchanged. -/
theorem c7_not_directory_fails (cfg : Config) (fs : FS)
    (h : fs.photosDir = none) :
    parse_photos_to_carousel_html cfg fs =
      (Except.error ("Not a directory: " ++ asPosix cfg.photosPath), fs) ∧
      rename_files_op none = Except.error "Not a directory" := by
  obtain ⟨pd, wr⟩ := fs
  have hpd : pd = none := h
  subst hpd
  exact ⟨rfl, rfl⟩

/-- C7 witness. -/
theorem c7_witness :
    parse_photos_to_carousel_html
        ⟨⟨false, ["p"]⟩, "https://x/", ⟨false, ["out"]⟩, 4000, ⟨true, []⟩⟩
        ⟨none, []⟩ =
      (Except.error ("Not a directory: " ++ asPosix ⟨false, ["p"]⟩),
        (⟨none, []⟩ : FS)) :=
  (c7_not_directory_fails
    ⟨⟨false, ["p"]⟩, "https://x/", ⟨false, ["out"]⟩, 4000, ⟨true, []⟩⟩
    ⟨none, []⟩ rfl).1

/-- C8: whenever the resolved output path is neither the resolved output
directory nor nested under it, the write step fails with the security error
and the filesystem is returned unchanged — nothing is written. -/
theorem c8_secure_write_refuses (cwd outDir outPath : PPath) (content : String)
    (fs : FS)
    (h : ¬ (parentOf (resolvePath cwd outDir) (resolvePath cwd outPath) = true ∨
        resolvePath cwd outPath = resolvePath cwd outDir)) :
    secureWrite cwd outDir outPath content fs =
      (Except.error "Refusing to write outside output directory.", fs) := by
  rw [secureWrite, if_neg]
  intro hc
  rcases Bool.or_eq_true _ _ |>.mp hc with h1 | h1
  · exact h (Or.inl h1)
  · exact h (Or.inr (of_decide_eq_true h1))

/-- C8 witness: an output path that climbs out of `/out` with `..` segments
resolves outside the output directory; the write is refused and the state
untouched. -/
theorem c8_witness :
    secureWrite ⟨true, []⟩ ⟨true, ["out"]⟩ ⟨true, ["out", "..", "..", "secret.html"]⟩
        "html" ⟨none, []⟩ =
      (Except.error "Refusing to write outside output directory.",
        (⟨none, []⟩ : FS)) :=
  c8_secure_write_refuses ⟨true, []⟩ ⟨true, ["out"]⟩
    ⟨true, ["out", "..", "..", "secret.html"]⟩ "html" ⟨none, []⟩ (by decide)

/-- C10: the security branch of the emitter is unreachable — every slug is
nonempty and made of `[a-z0-9_-]` only (with `carousel` as fallback), so
`outDir / (slug + ".html")` is a direct child of the output directory and
the emitter always reaches the write when the photos directory exists. -/
theorem c10_security_branch_unreachable :
    (∀ s : String, sanitize_slug s ≠ "" ∧
      ∀ c ∈ (sanitize_slug s).data, isStemChar c = true) ∧
    (∀ (cfg : Config) (fs : FS) (d : List Entry), fs.photosDir = some d →
      (parse_photos_to_carousel_html cfg fs).1 =
        Except.ok (joinChild cfg.outDir
          (sanitize_slug (lastName cfg.photosPath) ++ ".html"))) :=
  ⟨sanitize_slug_ok, fun cfg fs d h => parse_succeeds cfg fs d h⟩

/-- C10 witness. -/
theorem c10_witness :
    (parse_photos_to_carousel_html
        ⟨⟨false, ["photos", "news"]⟩, "https://x/", ⟨false, ["car"]⟩, 4000, ⟨true, []⟩⟩
        ⟨some [⟨"a.png", true, 0⟩], []⟩).1 =
      Except.ok (joinChild ⟨false, ["car"]⟩ (sanitize_slug "news" ++ ".html")) :=
  c10_security_branch_unreachable.2
    ⟨⟨false, ["photos", "news"]⟩, "https://x/", ⟨false, ["car"]⟩, 4000, ⟨true, []⟩⟩
    ⟨some [⟨"a.png", true, 0⟩], []⟩ [⟨"a.png", true, 0⟩] rfl

/-! ### Concrete evaluations of the embedded functions -/

example : sanitize_filename "My File.PNG" = "my_file.png" := by decide

example : sanitize_filename "a.!" = "a." := by decide

example : sanitize_filename "a." = "a" := by decide

example : sanitize_filename "!!!" = "file" := by decide

example : sanitize_filename "__a__b__.tar.gz" = "a_b_tar.gz" := by decide

example : sanitize_slug "Weird  Name!" = "weird_name" := by decide

example : sanitize_slug "!!!" = "carousel" := by decide

example : matchesPattern "a." = true := by decide

example : matchesPattern "" = false := by decide

example : decRepr 0 = ['0'] := by decide

example : decRepr 1234 = ['1', '2', '3', '4'] := by decide

example : unique_path ["a.png"] "b.png" = "b.png" := by decide

example : unique_path ["a.png"] "a.png" = "a_1.png" := by decide

example : unique_path ["a.png", "a_1.png", "a_2.png"] "a.png" = "a_3.png" := by decide

example : unique_path ["x"] "x" = "x_1" := by decide

example :
    rename_files [⟨"a.png", true, 0⟩] =
      ⟨[⟨"a_1.png", true, 0⟩], [("a.png", "a_1.png")], false⟩ := by decide

example :
    rename_files [⟨"My Pic.PNG", true, 7⟩] =
      ⟨[⟨"my_pic.png", true, 7⟩], [("My Pic.PNG", "my_pic.png")], false⟩ := by decide

/-! ### Additional witnesses instantiating the claim theorems -/

/-- C3 witness: the shape theorem instantiated at a concrete filename. -/
theorem c3_witness : matchesPattern (sanitize_filename "Weird !!.TXT") = true :=
  c3_sanitize_output_matches_pattern "Weird !!.TXT"

/-- C6 witness: membership in the scan, instantiated at a concrete listing
(a case-insensitive `.PNG`, a `.txt` and a subdirectory present). -/
theorem c6_witness :
    "b.PNG" ∈ sortedPngs
      [⟨"b.PNG", true, 0⟩, ⟨"a.png", true, 1⟩, ⟨"doc.txt", true, 2⟩, ⟨"sub", false, 3⟩] :=
  ((c6_scan_selects_and_sorts
      [⟨"b.PNG", true, 0⟩, ⟨"a.png", true, 1⟩, ⟨"doc.txt", true, 2⟩, ⟨"sub", false, 3⟩]).2.2.1
    "b.PNG").mpr ⟨⟨"b.PNG", true, 0⟩, by decide, rfl, rfl, by decide⟩

/-- C9 witness: the never-clobbers invariant instantiated at a concrete
directory containing a collision. -/
theorem c9_witness :
    (rename_files [⟨"A b.PNG", true, 5⟩, ⟨"a_b.png", true, 6⟩]).clob = false :=
  (c9_rename_never_clobbers [⟨"A b.PNG", true, 5⟩, ⟨"a_b.png", true, 6⟩]).1
